/-
Verification of the BuildGraph build-graph execution engine
(AutomationTool.Build: Execute, BuildAllNodes, BuildSingleNode,
FindAvailableTasks, FindFileToOutputNameMapping) against its
natural-language specification.

The executor logic is translated directly from the C# source.  The data
model (Node, AgentGroup, ManualTrigger, Graph) and the TempStorage cache
are declared and used by that source but implemented elsewhere; those are
modelled from the specification, as marked on each definition.
-/
import Mathlib

namespace BuildGraph

/-- Modelled from the spec: a ManualTrigger is "a named gate with an
optional `Parent` (forms a forest of triggers)".  The forest structure is
captured by the inductive: a trigger is either a parentless root or a
child of another trigger. -/
inductive ManualTrigger where
  | root (name : String)
  | child (name : String) (parent : ManualTrigger)
deriving DecidableEq, Repr

/-- The trigger's name. -/
def ManualTrigger.name : ManualTrigger → String
  | .root n => n
  | .child n _ => n

/-- The trigger's optional parent. -/
def ManualTrigger.parent : ManualTrigger → Option ManualTrigger
  | .root _ => none
  | .child _ p => some p

/-- The chain collected by the activation loop of `Execute`:
`while(Trigger != null) { Triggers.Add(Trigger); Trigger = Trigger.Parent; }`
returns the trigger itself followed by all of its ancestors. -/
def ManualTrigger.withAncestors : ManualTrigger → List ManualTrigger
  | .root n => [.root n]
  | .child n p => .child n p :: p.withAncestors

/-- Modelled from the spec: a Node has a unique `Name`, ordered
`InputNames`/`OutputNames` tag-name sequences, `InputDependencies` (here
recorded by node name), and an optional `ControllingTrigger`. -/
structure Node where
  name : String
  inputNames : List String
  outputNames : List String
  inputDependencies : List String
  controllingTrigger : Option ManualTrigger
deriving DecidableEq, Repr

/-- Modelled from the spec: an AgentGroup is an ordered sequence of
nodes. -/
structure AgentGroup where
  nodes : List Node
deriving DecidableEq, Repr

/-- Modelled from the spec: the Graph owns the ordered `Groups` and the
`NameToTrigger` index.  The `NameToNode` and `OutputNameToNode` indices
are derived below from the groups. -/
structure Graph where
  groups : List AgentGroup
  nameToTrigger : List (String × ManualTrigger)
deriving DecidableEq, Repr

/-- The flattened node list, as built by
`Graph.Groups.SelectMany(x => x.Nodes)`. -/
def Graph.flatNodes (g : Graph) : List Node :=
  g.groups.flatMap (·.nodes)

/-- All output tag names in the whole graph, as enumerated by
`Graph.Groups.SelectMany(x => x.Nodes).SelectMany(x => x.OutputNames)`. -/
def Graph.allOutputNames (g : Graph) : List String :=
  g.flatNodes.flatMap (·.outputNames)

/-- Modelled from the spec: the `NameToNode` index (mapping from node
name to Node, keys unique). -/
def Graph.nameToNode (g : Graph) (name : String) : Option Node :=
  g.flatNodes.find? (fun n => n.name = name)

/-- Modelled from the spec: the `OutputNameToNode` index (mapping from
every produced tag name to the single node that produces it). -/
def Graph.outputNameToNode (g : Graph) (tag : String) : Option Node :=
  g.flatNodes.find? (fun n => decide (tag ∈ n.outputNames))

/-- Modelled from the spec: a TempStorageManifest is "a serializable list
of file paths (relative to a declared root) representing the output of
one node's one output tag". -/
structure TempStorageManifest where
  files : List String
deriving DecidableEq, Repr

/-- Modelled from the spec: the observable local state of TempStorage —
which nodes carry a completion marker, and the manifest stored for each
`(NodeName, OutputTagName)` pair.  The local/shared tier split is not
modelled: the claims under verification only depend on presence of
markers and manifests, not on which tier holds them. -/
structure TempStorage where
  completeNodes : List String
  manifests : List ((String × String) × TempStorageManifest)
deriving DecidableEq, Repr

/-- Modelled from the spec: `IsComplete(nodeName)` is true if a
completion marker for the node exists. -/
def TempStorage.isComplete (st : TempStorage) (nodeName : String) : Bool :=
  st.completeNodes.contains nodeName

/-- Modelled from the spec: `MarkAsComplete(nodeName)` writes the
completion marker. -/
def TempStorage.markAsComplete (st : TempStorage) (nodeName : String) : TempStorage :=
  { st with completeNodes := st.completeNodes ++ [nodeName] }

/-- Modelled from the spec: `CleanLocalNode(nodeName)` removes local
manifests and the completion marker for a node. -/
def TempStorage.cleanLocalNode (st : TempStorage) (nodeName : String) : TempStorage :=
  { completeNodes := st.completeNodes.filter (fun n => n ≠ nodeName),
    manifests := st.manifests.filter (fun e => e.1.1 ≠ nodeName) }

/-- Modelled from the spec: `CleanLocal()` removes all local manifests
and completion markers. -/
def TempStorage.cleanLocal (_ : TempStorage) : TempStorage :=
  { completeNodes := [], manifests := [] }

/-- Modelled from the spec: `Retreive(nodeName, outputName)` returns the
manifest for a previously produced output, or fails (`MissingOutput`) if
absent. -/
def TempStorage.retrieve (st : TempStorage) (nodeName outputName : String) :
    Option TempStorageManifest :=
  (st.manifests.find? (fun e => e.1.1 = nodeName ∧ e.1.2 = outputName)).map (·.2)

/-- Modelled from the spec: `Archive(nodeName, outputName, files, ...)`
records the manifest for the node/output pair. -/
def TempStorage.archive (st : TempStorage) (nodeName outputName : String)
    (files : List String) : TempStorage :=
  { st with manifests := st.manifests ++ [((nodeName, outputName), ⟨files⟩)] }

/-- Observable storage-facing actions of one engine run, in order. -/
inductive Ev where
  | cleanAll
  | clean (nodeName : String)
  | checkIntegrity (nodeName : String) (ok : Bool)
  | queryComplete (nodeName : String) (result : Bool)
  | buildStart (nodeName : String)
  | archive (nodeName : String) (outputName : String) (files : List String) (push : Bool)
  | markComplete (nodeName : String)
deriving DecidableEq, Repr

/-- Association-list lookup with .NET dictionary semantics (first and
only binding for a key wins). -/
def getKey {α : Type} : List (String × α) → String → Option α
  | [], _ => none
  | (k₀, v₀) :: t, k => if k₀ = k then some v₀ else getKey t k

/-- Association-list update with .NET dictionary semantics: replace the
binding if the key is present, otherwise append it. -/
def setKey {α : Type} : List (String × α) → String → α → List (String × α)
  | [], k, v => [(k, v)]
  | (k₀, v₀) :: t, k, v => if k₀ = k then (k, v) :: t else (k₀, v₀) :: setKey t k v

/-- The mutable `TagNameToFileSet` dictionary: a tag is either unset
(`none`, the null seeded for every graph output) or a file set. -/
abbrev TagMap := List (String × Option (List String))

/-- The black-box `Node.Build(Job, TagNameToFileSet)` contract: given the
node's name and the assembled tag map, either fail (`none`, the build
logic returned false) or succeed with the updated tag map. -/
abbrev NodeBuildFn := String → TagMap → Option TagMap

/-- An oracle for `CheckLocalIntegrity(nodeName, outputNames)`, which in
the original inspects the files on disk. -/
abbrev IntegrityFn := String → List String → Bool

/-- `x.ToFileReference(RootDir)`: resolve a manifest-relative path
against the root directory. -/
def resolveFile (root rel : String) : String :=
  root ++ "/" ++ rel

/-- First step of the tag-map assembly in `BuildSingleNode`: seed every
output tag name in the full graph with an invalid (null) entry. -/
def seedTagMap (g : Graph) : TagMap :=
  g.allOutputNames.foldl (fun m o => setKey m o none) []

/-- Second step: for each input tag name, resolve the producing node via
`OutputNameToNode`, retrieve its manifest, and bind the tag to the
manifest's files resolved against the root directory.  A missing
producer or manifest aborts (the original throws). -/
def fetchInputs (g : Graph) (storage : TempStorage) (root : String) :
    List String → TagMap → Option TagMap
  | [], m => some m
  | i :: rest, m =>
    match g.outputNameToNode i with
    | none => none
    | some producer =>
      match storage.retrieve producer.name i with
      | none => none
      | some manifest =>
        fetchInputs g storage root rest
          (setKey m i (some (manifest.files.map (resolveFile root))))

/-- Third step: bind each of the node's own output tag names to an empty
file set. -/
def seedOutputs (outputs : List String) (m : TagMap) : TagMap :=
  outputs.foldl (fun m o => setKey m o (some [])) m

/-- The complete tag map handed to `Node.Build` by `BuildSingleNode`:
null placeholders for every graph output, then the node's inputs fetched
from storage, then empty sets for the node's own outputs. -/
def assembleTagMap (g : Graph) (node : Node) (storage : TempStorage) (root : String) :
    Option TagMap :=
  (fetchInputs g storage root node.inputNames (seedTagMap g)).map
    (seedOutputs node.outputNames)

/-- The `ReferencedOutputs` computation of `BuildSingleNode`: the tags
consumed by any node of another agent group, or of the same group under a
different controlling trigger. -/
def referencedOutputs (g : Graph) (node : Node) : List String :=
  g.groups.flatMap (fun group =>
    group.nodes.flatMap (fun other =>
      if node ∉ group.nodes ∨ node.controllingTrigger ≠ other.controllingTrigger then
        other.inputNames
      else []))

/-- The archiving loop of `BuildSingleNode`: archive each declared output
tag in order, flagging it for shared storage when it is referenced from
outside the node's agent scope.  A missing or still-null tag entry aborts
(the original throws). -/
def archiveOutputs (nodeName : String) (refs : List String) (m : TagMap) :
    List String → TempStorage → Bool × TempStorage × List Ev
  | [], st => (true, st, [])
  | o :: rest, st =>
    match getKey m o with
    | some (some files) =>
      let push := refs.contains o
      let r := archiveOutputs nodeName refs m rest (st.archive nodeName o files)
      (r.1, r.2.1, Ev.archive nodeName o files push :: r.2.2)
    | _ => (false, st, [])

/-- `BuildSingleNode(Job, Graph, Node, Storage)`: assemble the tag map,
invoke the node's build logic, compute the referenced outputs, archive
every declared output, and mark the node complete.  Returns the success
flag, the updated storage, and the ordered storage events. -/
def BuildSingleNode (nodeBuild : NodeBuildFn) (g : Graph) (node : Node)
    (storage : TempStorage) (root : String) : Bool × TempStorage × List Ev :=
  match assembleTagMap g node storage root with
  | none => (false, storage, [])
  | some m₀ =>
    match nodeBuild node.name m₀ with
    | none => (false, storage, [Ev.buildStart node.name])
    | some m₁ =>
      let refs := referencedOutputs g node
      let r := archiveOutputs node.name refs m₁ node.outputNames storage
      if r.1 then
        (true, (r.2.1).markAsComplete node.name,
          Ev.buildStart node.name :: (r.2.2 ++ [Ev.markComplete node.name]))
      else
        (false, r.2.1, Ev.buildStart node.name :: r.2.2)

/-- `FindFileToOutputNameMapping`'s inner loop over one output's file
set: a file already claimed by an earlier output forces the result false
(the original logs the conflict and continues), otherwise the file is
recorded against this output name. -/
def fileOwnerLoop (outputName : String) :
    List String → Bool × List (String × String) → Bool × List (String × String)
  | [], st => st
  | f :: rest, (res, m) =>
    match getKey m f with
    | some _ => fileOwnerLoop outputName rest (false, m)
    | none => fileOwnerLoop outputName rest (res, m ++ [(f, outputName)])

/-- The loop of `FindFileToOutputNameMapping` over the node's output
names.  An output whose tag entry is absent is skipped (`TryGetValue`
false); a null entry aborts (the original dereferences it). -/
def findFileOwnersLoop (m : TagMap) :
    List String → Bool × List (String × String) → Option (Bool × List (String × String))
  | [], st => some st
  | o :: rest, st =>
    match getKey m o with
    | none => findFileOwnersLoop m rest st
    | some none => none
    | some (some files) => findFileOwnersLoop m rest (fileOwnerLoop o files st)

/-- `FindFileToOutputNameMapping(Node, TagNameToFileSet, FileToOutputName)`:
build the reverse mapping from produced file to output tag name,
returning false if some file appears under two different output tags.
This helper is declared in the source but never invoked. -/
def FindFileToOutputNameMapping (node : Node) (m : TagMap) :
    Option (Bool × List (String × String)) :=
  findFileOwnersLoop m node.outputNames (true, [])

/-- The integrity pre-pass of `BuildAllNodes`: in flattened order, clean
every node whose input dependencies include an already-cleaned node, or
whose local cache fails the integrity check (checked only when no
dependency was cleaned, matching the short-circuit in the source). -/
def prePass (integrity : IntegrityFn) :
    List Node → List String → TempStorage → List String × TempStorage × List Ev
  | [], cleaned, st => (cleaned, st, [])
  | n :: rest, cleaned, st =>
    if n.inputDependencies.any (fun d => cleaned.contains d) then
      let r := prePass integrity rest (cleaned ++ [n.name]) (st.cleanLocalNode n.name)
      (r.1, r.2.1, Ev.clean n.name :: r.2.2)
    else if integrity n.name n.outputNames then
      let r := prePass integrity rest cleaned st
      (r.1, r.2.1, Ev.checkIntegrity n.name true :: r.2.2)
    else
      let r := prePass integrity rest (cleaned ++ [n.name]) (st.cleanLocalNode n.name)
      (r.1, r.2.1, Ev.checkIntegrity n.name false :: Ev.clean n.name :: r.2.2)

/-- The execution loop of `BuildAllNodes`: skip nodes that are already
complete, build the rest in order, and stop at the first failure. -/
def buildLoop (nodeBuild : NodeBuildFn) (g : Graph) (root : String) :
    List Node → TempStorage → Bool × TempStorage × List Ev
  | [], st => (true, st, [])
  | n :: rest, st =>
    if st.isComplete n.name then
      let r := buildLoop nodeBuild g root rest st
      (r.1, r.2.1, Ev.queryComplete n.name true :: r.2.2)
    else
      let rb := BuildSingleNode nodeBuild g n st root
      if rb.1 then
        let r := buildLoop nodeBuild g root rest rb.2.1
        (r.1, r.2.1, Ev.queryComplete n.name false :: rb.2.2 ++ r.2.2)
      else
        (false, rb.2.1, Ev.queryComplete n.name false :: rb.2.2)

/-- `BuildAllNodes(Job, Graph, Storage)`: the integrity pre-pass followed
by the in-order execution loop. -/
def BuildAllNodes (nodeBuild : NodeBuildFn) (integrity : IntegrityFn)
    (g : Graph) (storage : TempStorage) (root : String) :
    Bool × TempStorage × List Ev :=
  let p := prePass integrity g.flatNodes [] storage
  let r := buildLoop nodeBuild g root g.flatNodes p.2.1
  (r.1, r.2.1, p.2.2 ++ r.2.2)

/-- One loadable type as seen by task discovery: its name, whether it
derives from `CustomTask`, and the names carried by its
`TaskElementAttribute`s. -/
structure TaskType where
  typeName : String
  isCustomTask : Bool
  elementNames : List String
deriving DecidableEq, Repr

/-- The inner loop of `FindAvailableTasks` over one type's task-element
attributes: a type that is not a `CustomTask` subclass, or an element
name that already has a handler, is an error. -/
def registerElems (isCustom : Bool) : List String → List String → Option (List String)
  | [], acc => some acc
  | e :: rest, acc =>
    if isCustom = false then none
    else if acc.contains e then none
    else registerElems isCustom rest (acc ++ [e])

/-- The loop of `FindAvailableTasks` over all loaded types. -/
def findTasksLoop : List TaskType → List String → Option (List String)
  | [], acc => some acc
  | t :: rest, acc =>
    match registerElems t.isCustomTask t.elementNames acc with
    | none => none
    | some acc₂ => findTasksLoop rest acc₂

/-- `FindAvailableTasks`: collect the task-element handler names from the
loaded types, failing on a non-`CustomTask` handler or a duplicate
element name. -/
def findAvailableTasks (types : List TaskType) : Option (List String) :=
  findTasksLoop types []

/-- Strip the leading `#` tag sigil from a reference, if present. -/
def stripTagSigil (name : String) : String :=
  match name.data with
  | '#' :: rest => String.mk rest
  | _ => name

/-- Modelled from the spec: `TryResolveReference(name)` resolves a target
string to nodes — either a literal node name, or an output tag name
(written with the `#` tag sigil) standing in for its producing node;
fails (`UnknownReference`) if neither matches. -/
def Graph.tryResolveReference (g : Graph) (name : String) : Option (List Node) :=
  match g.nameToNode name with
  | some n => some [n]
  | none =>
    match g.outputNameToNode (stripTagSigil name) with
    | some n => some [n]
    | none => none

/-- The target-resolution loop of `Execute`: resolve every requested
target name, failing on the first name not in the graph. -/
def resolveTargets (g : Graph) : List String → Option (List Node)
  | [] => some []
  | t :: rest =>
    match g.tryResolveReference t with
    | none => none
    | some ns =>
      match resolveTargets g rest with
      | none => none
      | some more => some (ns ++ more)

/-- Modelled from the spec: one reachability step for `Graph.Select` —
add the input dependencies of every already-kept node. -/
def depStep (nodes : List Node) (acc : List String) : List String :=
  acc ++ (nodes.filter (fun n => acc.contains n.name)).flatMap (·.inputDependencies)

/-- Iterate `depStep` enough times to reach the transitive dependency
closure. -/
def depClosure (nodes : List Node) : Nat → List String → List String
  | 0, acc => acc
  | k + 1, acc => depClosure nodes k (depStep nodes acc)

/-- Modelled from the spec: `Select(targets)` retains only the targets
and their transitive input-dependency closure, preserving relative order
within groups and dropping now-empty groups. -/
def Graph.select (g : Graph) (targets : List Node) : Graph :=
  let keep := depClosure g.flatNodes g.flatNodes.length (targets.map (·.name))
  { groups :=
      (g.groups.map (fun grp =>
        ⟨grp.nodes.filter (fun n => keep.contains n.name)⟩)).filter
        (fun grp => ¬ grp.nodes.isEmpty),
    nameToTrigger := g.nameToTrigger }

/-- `Graph.NameToTrigger.TryGetValue`. -/
def lookupTrigger (m : List (String × ManualTrigger)) (name : String) :
    Option ManualTrigger :=
  (m.find? (fun e => e.1 = name)).map (·.2)

/-- The trigger-activation loop of `Execute`: look each requested trigger
name up in `NameToTrigger` (an unknown name is an error) and add the
trigger together with all of its ancestors. -/
def activeTriggersLoop (g : Graph) : List String → Option (List ManualTrigger)
  | [] => some []
  | n :: rest =>
    match lookupTrigger g.nameToTrigger n with
    | none => none
    | some t => (activeTriggersLoop g rest).map (fun ts => t.withAncestors ++ ts)

/-- The active trigger set of `Execute`: the requested triggers closed
under `Parent`, plus every trigger in the graph when `-SkipTriggers` is
set. -/
def activeTriggers (g : Graph) (names : List String) (skip : Bool) :
    Option (List ManualTrigger) :=
  match activeTriggersLoop g names with
  | none => none
  | some ts => some (if skip then ts ++ g.nameToTrigger.map (·.2) else ts)

/-- Exit status of `Execute` (success versus generic failure). -/
inductive ExitCode where
  | success
  | error
deriving DecidableEq, Repr

/-- The command-line surface of `Execute` that the engine consumes, after
parsing. -/
structure ExecuteArgs where
  targetNames : List String
  triggerNames : List String
  skipTriggers : Bool
  clean : Bool
  cleanNodes : List String
  listOnly : Bool
  exportFile : Option String
  singleNodeName : Option String
deriving DecidableEq, Repr

/-- The cleaning phase of `Execute`: `-Clean` wipes local storage, then
each `-CleanNode` name is cleaned individually. -/
def cleanPhase (args : ExecuteArgs) (storage : TempStorage) : TempStorage × List Ev :=
  let st₁ := if args.clean then storage.cleanLocal else storage
  let evs₁ : List Ev := if args.clean then [Ev.cleanAll] else []
  (args.cleanNodes.foldl (fun st n => st.cleanLocalNode n) st₁,
   evs₁ ++ args.cleanNodes.map Ev.clean)

/-- `Execute`, from the point where the parsed graph is available: task
discovery, cleaning, target resolution, graph trimming, trigger
activation, `-SingleNode` lookup, and finally the dispatch between
`-ListOnly`, `-Export`, single-node build and full build.  Returns the
exit code and the ordered storage events. -/
def Execute (tasks : List TaskType) (args : ExecuteArgs) (g : Graph)
    (storage : TempStorage) (nodeBuild : NodeBuildFn) (integrity : IntegrityFn)
    (root : String) : ExitCode × List Ev :=
  match findAvailableTasks tasks with
  | none => (.error, [])
  | some _ =>
    let c := cleanPhase args storage
    match resolveTargets g args.targetNames with
    | none => (.error, c.2)
    | some targetNodes =>
      let g₂ := g.select targetNodes
      match activeTriggers g₂ args.triggerNames args.skipTriggers with
      | none => (.error, c.2)
      | some _ =>
        let singleRes : Option (Option Node) :=
          match args.singleNodeName with
          | none => some none
          | some sn =>
            match g₂.nameToNode sn with
            | none => none
            | some node => some (some node)
        match singleRes with
        | none => (.error, c.2)
        | some singleNodeOpt =>
          if args.listOnly then (.success, c.2)
          else
            match args.exportFile with
            | some _ => (.success, c.2)
            | none =>
              match singleNodeOpt with
              | some node =>
                let r := BuildSingleNode nodeBuild g₂ node c.1 root
                (if r.1 then .success else .error, c.2 ++ r.2.2)
              | none =>
                let r := BuildAllNodes nodeBuild integrity g₂ c.1 root
                (if r.1 then .success else .error, c.2 ++ r.2.2)

/-! ### Association-map lemmas -/

theorem getKey_setKey_self {α : Type} (m : List (String × α)) (k : String) (v : α) :
    getKey (setKey m k v) k = some v := by
  induction m with
  | nil => simp [setKey, getKey]
  | cons p t ih =>
    obtain ⟨k₀, v₀⟩ := p
    by_cases h : k₀ = k
    · simp [setKey, h, getKey]
    · simp [setKey, h, getKey, ih]

theorem getKey_setKey_ne {α : Type} (m : List (String × α)) {k k' : String} (v : α)
    (h : k' ≠ k) : getKey (setKey m k v) k' = getKey m k' := by
  induction m with
  | nil => simp [setKey, getKey, h, Ne.symm h]
  | cons p t ih =>
    obtain ⟨k₀, v₀⟩ := p
    by_cases h₀ : k₀ = k
    · subst h₀
      simp [setKey, getKey, h, Ne.symm h]
    · by_cases h₁ : k₀ = k'
      · subst h₁
        simp [setKey, getKey, h, h₀]
      · simp [setKey, h₀, getKey, h₁, ih]

theorem getKey_foldl_setKey_const {α : Type} (v : α) (L : List String)
    (m₀ : List (String × α)) (k : String) :
    getKey (L.foldl (fun m o => setKey m o v) m₀) k =
      if k ∈ L then some v else getKey m₀ k := by
  induction L generalizing m₀ with
  | nil => simp
  | cons a t ih =>
    simp only [List.foldl_cons]
    rw [ih]
    by_cases ht : k ∈ t
    · simp [ht]
    · by_cases ha : k = a
      · subst ha
        simp [ht, getKey_setKey_self]
      · simp [ht, ha, getKey_setKey_ne _ _ ha]

theorem getKey_seedTagMap (g : Graph) (k : String) :
    getKey (seedTagMap g) k = if k ∈ g.allOutputNames then some none else none := by
  unfold seedTagMap
  rw [getKey_foldl_setKey_const]
  simp [getKey]

theorem getKey_seedOutputs (outputs : List String) (m : TagMap) (k : String) :
    getKey (seedOutputs outputs m) k =
      if k ∈ outputs then some (some []) else getKey m k := by
  unfold seedOutputs
  rw [getKey_foldl_setKey_const]

/-! ### Tag-map assembly lemmas -/

theorem fetchInputs_getKey_not_mem (g : Graph) (st : TempStorage) (root : String)
    (inputs : List String) (m m' : TagMap) (k : String)
    (hk : k ∉ inputs) (h : fetchInputs g st root inputs m = some m') :
    getKey m' k = getKey m k := by
  induction inputs generalizing m with
  | nil =>
    simp only [fetchInputs, Option.some.injEq] at h
    rw [h]
  | cons i rest ih =>
    rw [fetchInputs] at h
    cases hp : g.outputNameToNode i with
    | none => simp [hp] at h
    | some producer =>
      simp only [hp] at h
      cases hr : st.retrieve producer.name i with
      | none => simp [hr] at h
      | some manifest =>
        simp only [hr] at h
        have hkr : k ∉ rest := fun hx => hk (List.mem_cons_of_mem _ hx)
        have hki : k ≠ i := fun hx => hk (hx ▸ List.mem_cons_self i rest)
        rw [ih _ hkr h, getKey_setKey_ne _ _ hki]

theorem fetchInputs_getKey_mem (g : Graph) (st : TempStorage) (root : String)
    (inputs : List String) (m m' : TagMap)
    (h : fetchInputs g st root inputs m = some m') :
    ∀ i ∈ inputs, ∃ producer manifest,
      g.outputNameToNode i = some producer ∧
      st.retrieve producer.name i = some manifest ∧
      getKey m' i = some (some (manifest.files.map (resolveFile root))) := by
  induction inputs generalizing m with
  | nil => intro i hi; exact absurd hi (List.not_mem_nil i)
  | cons i₀ rest ih =>
    intro i hi
    rw [fetchInputs] at h
    cases hp : g.outputNameToNode i₀ with
    | none => simp [hp] at h
    | some producer =>
      simp only [hp] at h
      cases hr : st.retrieve producer.name i₀ with
      | none => simp [hr] at h
      | some manifest =>
        simp only [hr] at h
        rcases List.mem_cons.mp hi with rfl | hi'
        · by_cases hmem : i ∈ rest
          · exact ih _ h i hmem
          · refine ⟨producer, manifest, hp, hr, ?_⟩
            rw [fetchInputs_getKey_not_mem g st root rest _ _ i hmem h,
              getKey_setKey_self]
        · exact ih _ h i hi'

/-! ### C7: the tag map handed to the node's build logic -/

/-- C7: the tag map `BuildSingleNode` passes to the node's build logic
contains every output tag name of the whole graph (initialized to the
unset value when the node neither consumes nor produces it), binds each
of the node's input tag names to the file set of the manifest retrieved
from storage for its producing node resolved against the root directory,
and binds each of the node's own output tag names to an empty set. -/
theorem buildSingleNode_tagMap_contract
    (g : Graph) (node : Node) (storage : TempStorage) (root : String) (m : TagMap)
    (hm : assembleTagMap g node storage root = some m) :
    (∀ o ∈ g.allOutputNames, (getKey m o).isSome) ∧
    (∀ o ∈ g.allOutputNames, o ∉ node.inputNames → o ∉ node.outputNames →
      getKey m o = some none) ∧
    (∀ i ∈ node.inputNames, i ∉ node.outputNames →
      ∃ producer manifest,
        g.outputNameToNode i = some producer ∧
        storage.retrieve producer.name i = some manifest ∧
        getKey m i = some (some (manifest.files.map (resolveFile root)))) ∧
    (∀ o ∈ node.outputNames, getKey m o = some (some [])) := by
  unfold assembleTagMap at hm
  rw [Option.map_eq_some'] at hm
  obtain ⟨m₁, hf, rfl⟩ := hm
  have hout : ∀ o ∈ node.outputNames, getKey (seedOutputs node.outputNames m₁) o
      = some (some []) := by
    intro o ho
    rw [getKey_seedOutputs]
    simp [ho]
  have hin : ∀ i ∈ node.inputNames, i ∉ node.outputNames →
      ∃ producer manifest,
        g.outputNameToNode i = some producer ∧
        storage.retrieve producer.name i = some manifest ∧
        getKey (seedOutputs node.outputNames m₁) i
          = some (some (manifest.files.map (resolveFile root))) := by
    intro i hi hniout
    obtain ⟨producer, manifest, hp, hr, hg⟩ :=
      fetchInputs_getKey_mem g storage root node.inputNames _ _ hf i hi
    refine ⟨producer, manifest, hp, hr, ?_⟩
    rw [getKey_seedOutputs]
    simp [hniout, hg]
  have huntouched : ∀ o ∈ g.allOutputNames, o ∉ node.inputNames →
      o ∉ node.outputNames → getKey (seedOutputs node.outputNames m₁) o = some none := by
    intro o hall hnin hnout
    rw [getKey_seedOutputs]
    simp only [hnout, if_neg]
    rw [fetchInputs_getKey_not_mem g storage root node.inputNames _ _ o hnin hf,
      getKey_seedTagMap]
    simp [hall]
  refine ⟨?_, huntouched, hin, hout⟩
  intro o hall
  by_cases ho : o ∈ node.outputNames
  · rw [hout o ho]; rfl
  · by_cases hi : o ∈ node.inputNames
    · obtain ⟨_, _, _, _, hg⟩ := hin o hi ho
      rw [hg]; rfl
    · rw [huntouched o hall hi ho]; rfl

/-- Concrete fixture: the Compile/Package scenario of the spec.  Compile
produces the `Binaries` tag; Package consumes it and produces
`Archive`. -/
def nCompile : Node := ⟨"Compile", [], ["Binaries"], [], none⟩

/-- Concrete fixture: the Package node (see `nCompile`). -/
def nPackage : Node := ⟨"Package", ["Binaries"], ["Archive"], ["Compile"], none⟩

/-- Concrete fixture: the graph holding `nCompile` and `nPackage` in a
single agent group. -/
def gCP : Graph := ⟨[⟨[nCompile, nPackage]⟩], []⟩

/-- Concrete fixture: storage in which Compile is already complete and
its `Binaries` manifest lists `bin.exe`. -/
def stCP : TempStorage := ⟨["Compile"], [(("Compile", "Binaries"), ⟨["bin.exe"]⟩)]⟩

/-- The tag map assembled for Package over `gCP`/`stCP`. -/
def mPackage : TagMap := (assembleTagMap gCP nPackage stCP "Root").getD []

/-- Witness for C7 at the Compile/Package fixture. -/
theorem buildSingleNode_tagMap_contract_witness :
    assembleTagMap gCP nPackage stCP "Root" = some mPackage ∧
    ((∀ o ∈ gCP.allOutputNames, (getKey mPackage o).isSome) ∧
     (∀ o ∈ gCP.allOutputNames, o ∉ nPackage.inputNames → o ∉ nPackage.outputNames →
       getKey mPackage o = some none) ∧
     (∀ i ∈ nPackage.inputNames, i ∉ nPackage.outputNames →
       ∃ producer manifest,
         gCP.outputNameToNode i = some producer ∧
         stCP.retrieve producer.name i = some manifest ∧
         getKey mPackage i = some (some (manifest.files.map (resolveFile "Root")))) ∧
     (∀ o ∈ nPackage.outputNames, getKey mPackage o = some (some []))) :=
  ⟨by decide, buildSingleNode_tagMap_contract gCP nPackage stCP "Root" mPackage (by decide)⟩

/-! ### C1: the file-ownership check is never executed -/

/-- Concrete fixture: a node whose build logic writes the same file to
both of its declared output tags. -/
def nAmbig : Node := ⟨"Compile", [], ["ObjFiles", "Debug"], [], none⟩

/-- Concrete fixture: the graph holding only `nAmbig`. -/
def gAmbig : Graph := ⟨[⟨[nAmbig]⟩], []⟩

/-- Concrete fixture: build logic tagging `a.obj` into both `ObjFiles`
and `Debug`. -/
def buildAmbig : NodeBuildFn := fun _ m =>
  some (setKey (setKey m "ObjFiles" (some ["a.obj"])) "Debug" (some ["a.obj"]))

/-- Concrete fixture: empty storage. -/
def stEmpty : TempStorage := ⟨[], []⟩

/-- The tag map after `nAmbig`'s build logic has run. -/
def mAmbig : TagMap :=
  (buildAmbig "Compile" ((assembleTagMap gAmbig nAmbig stEmpty "Root").getD [])).getD []

/-- C1 (code bug): when a build tags the same file `a.obj` under the two
output tags `ObjFiles` and `Debug`, `BuildSingleNode` nevertheless
succeeds, archives both outputs and marks the node complete — the
reverse file-to-output mapping of `FindFileToOutputNameMapping`, which
would have reported the conflict (result `false`), is declared in the
source but never invoked. -/
theorem buildSingleNode_ambiguousOutput_not_rejected :
    (BuildSingleNode buildAmbig gAmbig nAmbig stEmpty "Root").1 = true ∧
    Ev.archive "Compile" "ObjFiles" ["a.obj"] false
      ∈ (BuildSingleNode buildAmbig gAmbig nAmbig stEmpty "Root").2.2 ∧
    Ev.archive "Compile" "Debug" ["a.obj"] false
      ∈ (BuildSingleNode buildAmbig gAmbig nAmbig stEmpty "Root").2.2 ∧
    Ev.markComplete "Compile"
      ∈ (BuildSingleNode buildAmbig gAmbig nAmbig stEmpty "Root").2.2 ∧
    ((BuildSingleNode buildAmbig gAmbig nAmbig stEmpty "Root").2.1).isComplete "Compile"
      = true ∧
    FindFileToOutputNameMapping nAmbig mAmbig = some (false, [("a.obj", "ObjFiles")]) := by
  decide

/-! ### Integrity pre-pass lemmas -/

theorem prePass_cleaned_extend (integrity : IntegrityFn) (l : List Node)
    (c : List String) (st : TempStorage) :
    ∃ extra, (prePass integrity l c st).1 = c ++ extra ∧
      ∀ x ∈ extra, x ∈ l.map (·.name) := by
  induction l generalizing c st with
  | nil => exact ⟨[], by simp [prePass], by simp⟩
  | cons n rest ih =>
    simp only [prePass]
    split_ifs with h₁ h₂
    · obtain ⟨extra, he, hm⟩ := ih (c ++ [n.name]) (st.cleanLocalNode n.name)
      refine ⟨n.name :: extra, by simp [he], ?_⟩
      intro x hx
      rcases List.mem_cons.mp hx with rfl | hx'
      · simp
      · simp only [List.map_cons, List.mem_cons]
        exact Or.inr (hm x hx')
    · obtain ⟨extra, he, hm⟩ := ih c st
      refine ⟨extra, he, ?_⟩
      intro x hx
      simp only [List.map_cons, List.mem_cons]
      exact Or.inr (hm x hx)
    · obtain ⟨extra, he, hm⟩ := ih (c ++ [n.name]) (st.cleanLocalNode n.name)
      refine ⟨n.name :: extra, by simp [he], ?_⟩
      intro x hx
      rcases List.mem_cons.mp hx with rfl | hx'
      · simp
      · simp only [List.map_cons, List.mem_cons]
        exact Or.inr (hm x hx')

theorem prePass_cleaned_mono (integrity : IntegrityFn) (l : List Node)
    (c : List String) (st : TempStorage) {x : String} (hx : x ∈ c) :
    x ∈ (prePass integrity l c st).1 := by
  obtain ⟨extra, he, -⟩ := prePass_cleaned_extend integrity l c st
  rw [he]
  exact List.mem_append_left _ hx

theorem prePass_cleaned_origin (integrity : IntegrityFn) (l : List Node)
    (c : List String) (st : TempStorage) {x : String}
    (hx : x ∈ (prePass integrity l c st).1) :
    x ∈ c ∨ x ∈ l.map (·.name) := by
  obtain ⟨extra, he, hm⟩ := prePass_cleaned_extend integrity l c st
  rw [he] at hx
  rcases List.mem_append.mp hx with h | h
  · exact Or.inl h
  · exact Or.inr (hm x h)

theorem prePass_append (integrity : IntegrityFn) (l₁ l₂ : List Node)
    (c : List String) (st : TempStorage) :
    prePass integrity (l₁ ++ l₂) c st =
      ((prePass integrity l₂ (prePass integrity l₁ c st).1
          (prePass integrity l₁ c st).2.1).1,
       (prePass integrity l₂ (prePass integrity l₁ c st).1
          (prePass integrity l₁ c st).2.1).2.1,
       (prePass integrity l₁ c st).2.2 ++
         (prePass integrity l₂ (prePass integrity l₁ c st).1
           (prePass integrity l₁ c st).2.1).2.2) := by
  induction l₁ generalizing c st with
  | nil => simp [prePass]
  | cons n rest ih =>
    simp only [List.cons_append, prePass]
    split_ifs with h₁ h₂ <;> simp [ih]

theorem prePass_completeNodes_subset (integrity : IntegrityFn) (l : List Node)
    (c : List String) (st : TempStorage) :
    ((prePass integrity l c st).2.1).completeNodes ⊆ st.completeNodes := by
  induction l generalizing c st with
  | nil => simp [prePass]
  | cons n rest ih =>
    simp only [prePass]
    split_ifs with h₁ h₂
    · exact (ih _ _).trans (List.filter_sublist _).subset
    · exact ih _ _
    · exact (ih _ _).trans (List.filter_sublist _).subset

theorem prePass_complete_preserved (integrity : IntegrityFn) (l : List Node)
    (c : List String) (st : TempStorage) (x : String)
    (hx : x ∈ st.completeNodes) (hnc : x ∉ (prePass integrity l c st).1) :
    x ∈ ((prePass integrity l c st).2.1).completeNodes := by
  induction l generalizing c st with
  | nil => simpa [prePass] using hx
  | cons n rest ih =>
    have hxn : x ∈ (prePass integrity (n :: rest) c st).1 → False := hnc
    simp only [prePass] at hxn ⊢
    split_ifs at hxn ⊢ with h₁ h₂
    · have hne : x ≠ n.name := by
        intro h
        exact hxn (prePass_cleaned_mono integrity rest _ _ (by simp [h]))
      exact ih _ _ (by simp [TempStorage.cleanLocalNode, hx, hne]) hxn
    · exact ih _ _ hx hxn
    · have hne : x ≠ n.name := by
        intro h
        exact hxn (prePass_cleaned_mono integrity rest _ _ (by simp [h]))
      exact ih _ _ (by simp [TempStorage.cleanLocalNode, hx, hne]) hxn

theorem prePass_cleaned_not_complete (integrity : IntegrityFn) (l : List Node)
    (c : List String) (st : TempStorage) (x : String)
    (hx : x ∈ (prePass integrity l c st).1) (hxc : x ∉ c) :
    x ∉ ((prePass integrity l c st).2.1).completeNodes := by
  induction l generalizing c st with
  | nil => simp only [prePass] at hx; exact absurd hx hxc
  | cons n rest ih =>
    simp only [prePass] at hx ⊢
    split_ifs at hx ⊢ with h₁ h₂
    · by_cases hxeq : x = n.name
      · intro hmem
        have hsub := prePass_completeNodes_subset integrity rest
          (c ++ [n.name]) (st.cleanLocalNode n.name) hmem
        simp [TempStorage.cleanLocalNode, List.mem_filter, hxeq] at hsub
      · exact ih _ _ hx (by simp [hxc, hxeq])
    · exact ih _ _ hx hxc
    · by_cases hxeq : x = n.name
      · intro hmem
        have hsub := prePass_completeNodes_subset integrity rest
          (c ++ [n.name]) (st.cleanLocalNode n.name) hmem
        simp [TempStorage.cleanLocalNode, List.mem_filter, hxeq] at hsub
      · exact ih _ _ hx (by simp [hxc, hxeq])

/-! ### BuildSingleNode and execution-loop lemmas -/

theorem isComplete_iff (st : TempStorage) (x : String) :
    st.isComplete x = true ↔ x ∈ st.completeNodes := by
  simp [TempStorage.isComplete]

theorem archiveOutputs_completeNodes (nodeName : String) (refs : List String)
    (m : TagMap) (outs : List String) (st : TempStorage) :
    ((archiveOutputs nodeName refs m outs st).2.1).completeNodes = st.completeNodes := by
  induction outs generalizing st with
  | nil => rfl
  | cons o rest ih =>
    cases hk : getKey m o with
    | none => simp [archiveOutputs, hk]
    | some v =>
      cases v with
      | none => simp [archiveOutputs, hk]
      | some files => simp [archiveOutputs, hk, ih, TempStorage.archive]

theorem archiveOutputs_events_shape (nodeName : String) (refs : List String)
    (m : TagMap) (outs : List String) (st : TempStorage) :
    ∀ e ∈ (archiveOutputs nodeName refs m outs st).2.2,
      ∃ o files push, e = Ev.archive nodeName o files push := by
  induction outs generalizing st with
  | nil => simp [archiveOutputs]
  | cons o rest ih =>
    intro e he
    cases hk : getKey m o with
    | none => simp [archiveOutputs, hk] at he
    | some v =>
      cases v with
      | none => simp [archiveOutputs, hk] at he
      | some files =>
        simp only [archiveOutputs, hk] at he
        rcases List.mem_cons.mp he with rfl | h'
        · exact ⟨o, files, _, rfl⟩
        · exact ih _ e h'

theorem buildSingleNode_completeNodes_mono (nb : NodeBuildFn) (g : Graph)
    (node : Node) (st : TempStorage) (root : String) :
    st.completeNodes ⊆ ((BuildSingleNode nb g node st root).2.1).completeNodes := by
  unfold BuildSingleNode
  cases ha : assembleTagMap g node st root with
  | none => simp [ha]
  | some m₀ =>
    simp only [ha]
    cases hb : nb node.name m₀ with
    | none => simp [hb]
    | some m₁ =>
      simp only [hb]
      split_ifs with hr
      · intro x hx
        simp [TempStorage.markAsComplete, archiveOutputs_completeNodes, hx]
      · intro x hx
        simpa [archiveOutputs_completeNodes] using hx

theorem buildSingleNode_buildStart_name (nb : NodeBuildFn) (g : Graph) (node : Node)
    (st : TempStorage) (root : String) (x : String)
    (hx : Ev.buildStart x ∈ (BuildSingleNode nb g node st root).2.2) : x = node.name := by
  unfold BuildSingleNode at hx
  cases ha : assembleTagMap g node st root with
  | none => simp [ha] at hx
  | some m₀ =>
    simp only [ha] at hx
    cases hb : nb node.name m₀ with
    | none =>
      simp only [hb] at hx
      simp at hx
      exact hx
    | some m₁ =>
      simp only [hb] at hx
      split_ifs at hx with hr
      · rcases List.mem_cons.mp hx with h | h
        · exact (Ev.buildStart.injEq x node.name).mp h
        · rcases List.mem_append.mp h with h' | h'
          · obtain ⟨o, files, push, he⟩ :=
              archiveOutputs_events_shape node.name _ m₁ node.outputNames st _ h'
            exact absurd he (by simp)
          · exact absurd h' (by simp)
      · simp only [List.mem_cons] at hx
        rcases hx with h | h
        · exact (Ev.buildStart.injEq x node.name).mp h
        · obtain ⟨o, files, push, he⟩ :=
            archiveOutputs_events_shape node.name _ m₁ node.outputNames st _ h
          exact absurd he (by simp)

theorem prePass_no_buildStart (integrity : IntegrityFn) (l : List Node)
    (c : List String) (st : TempStorage) (x : String) :
    Ev.buildStart x ∉ (prePass integrity l c st).2.2 := by
  induction l generalizing c st with
  | nil => simp [prePass]
  | cons n rest ih =>
    simp only [prePass]
    split_ifs with h₁ h₂
    · intro h
      rcases List.mem_cons.mp h with h' | h'
      · exact Ev.noConfusion h'
      · exact ih _ _ h'
    · intro h
      rcases List.mem_cons.mp h with h' | h'
      · exact Ev.noConfusion h'
      · exact ih _ _ h'
    · intro h
      rcases List.mem_cons.mp h with h' | h'
      · exact Ev.noConfusion h'
      · rcases List.mem_cons.mp h' with h'' | h''
        · exact Ev.noConfusion h''
        · exact ih _ _ h''

theorem buildLoop_no_buildStart_of_complete (nb : NodeBuildFn) (g : Graph)
    (root : String) (l : List Node) (st : TempStorage) (x : String)
    (hx : x ∈ st.completeNodes) :
    Ev.buildStart x ∉ (buildLoop nb g root l st).2.2 := by
  induction l generalizing st with
  | nil => simp [buildLoop]
  | cons n rest ih =>
    by_cases hc : st.isComplete n.name
    · simp only [buildLoop, hc, if_true]
      intro h
      rcases List.mem_cons.mp h with h' | h'
      · exact Ev.noConfusion h'
      · exact ih st hx h'
    · have hxn : x ≠ n.name := by
        intro h
        exact hc ((isComplete_iff st n.name).mpr (h ▸ hx))
      simp only [buildLoop, hc, if_false, Bool.false_eq_true]
      by_cases hb : (BuildSingleNode nb g n st root).1
      · simp only [hb, if_true]
        intro h
        rcases List.mem_cons.mp h with h' | h'
        · exact Ev.noConfusion h'
        · rcases List.mem_append.mp h' with h'' | h''
          · exact hxn (buildSingleNode_buildStart_name nb g n st root x h'')
          · exact ih _ (buildSingleNode_completeNodes_mono nb g n st root hx) h''
      · simp only [hb, if_false, Bool.false_eq_true]
        intro h
        rcases List.mem_cons.mp h with h' | h'
        · exact Ev.noConfusion h'
        · exact hxn (buildSingleNode_buildStart_name nb g n st root x h')

theorem prePass_append_cleaned (integrity : IntegrityFn) (l₁ l₂ : List Node)
    (c : List String) (st : TempStorage) :
    (prePass integrity (l₁ ++ l₂) c st).1 =
      (prePass integrity l₂ (prePass integrity l₁ c st).1
        (prePass integrity l₁ c st).2.1).1 := by
  rw [prePass_append]

theorem prePass_append_storage (integrity : IntegrityFn) (l₁ l₂ : List Node)
    (c : List String) (st : TempStorage) :
    (prePass integrity (l₁ ++ l₂) c st).2.1 =
      (prePass integrity l₂ (prePass integrity l₁ c st).1
        (prePass integrity l₁ c st).2.1).2.1 := by
  rw [prePass_append]

/-! ### C2: complete nodes passing the pre-pass are not rebuilt -/

/-- C2: if a node is already complete, its integrity check succeeds, and
none of its input dependencies was cleaned in the pre-pass, then
`BuildAllNodes` never invokes its build logic (no `buildStart` event for
it is emitted). -/
theorem buildAllNodes_skips_complete
    (nodeBuild : NodeBuildFn) (integrity : IntegrityFn) (g : Graph)
    (storage : TempStorage) (root : String) (N : Node)
    (hnd : (g.flatNodes.map (·.name)).Nodup)
    (hmem : N ∈ g.flatNodes)
    (hcomp : storage.isComplete N.name = true)
    (hint : integrity N.name N.outputNames = true)
    (hdeps : ∀ d ∈ N.inputDependencies,
      d ∉ (prePass integrity g.flatNodes [] storage).1) :
    Ev.buildStart N.name ∉ (BuildAllNodes nodeBuild integrity g storage root).2.2 := by
  obtain ⟨pre, post, hflat⟩ := List.append_of_mem hmem
  have hnames : ((pre.map (·.name)) ++ N.name :: (post.map (·.name))).Nodup := by
    have := hnd
    rw [hflat] at this
    simpa using this
  rw [List.nodup_append] at hnames
  obtain ⟨h₁, h₂, hdisj⟩ := hnames
  have hNpre : N.name ∉ pre.map (·.name) := fun hx => hdisj hx (List.mem_cons_self _ _)
  have hNpost : N.name ∉ post.map (·.name) := (List.nodup_cons.mp h₂).1
  have hPP : prePass integrity g.flatNodes [] storage
      = prePass integrity (pre ++ N :: post) [] storage := by rw [hflat]
  have hc₁final : ∀ d, d ∈ (prePass integrity pre [] storage).1 →
      d ∈ (prePass integrity g.flatNodes [] storage).1 := by
    intro d hd
    rw [hPP, prePass_append_cleaned]
    exact prePass_cleaned_mono _ _ _ _ hd
  have hnone : ∀ d ∈ N.inputDependencies, d ∉ (prePass integrity pre [] storage).1 :=
    fun d hd hc => hdeps d hd (hc₁final d hc)
  have hstep : prePass integrity (N :: post) (prePass integrity pre [] storage).1
      (prePass integrity pre [] storage).2.1 =
      ((prePass integrity post (prePass integrity pre [] storage).1
          (prePass integrity pre [] storage).2.1).1,
       (prePass integrity post (prePass integrity pre [] storage).1
          (prePass integrity pre [] storage).2.1).2.1,
       Ev.checkIntegrity N.name true ::
         (prePass integrity post (prePass integrity pre [] storage).1
           (prePass integrity pre [] storage).2.1).2.2) := by
    simp [prePass, hint]
    exact hnone
  have hNfinal : N.name ∉ (prePass integrity g.flatNodes [] storage).1 := by
    intro hx
    rw [hPP, prePass_append_cleaned, hstep] at hx
    rcases prePass_cleaned_origin _ _ _ _ hx with h | h
    · rcases prePass_cleaned_origin _ _ _ _ h with h' | h'
      · exact absurd h' (List.not_mem_nil _)
      · exact hNpre h'
    · exact hNpost h
  have hcompmem : N.name ∈ storage.completeNodes := (isComplete_iff _ _).mp hcomp
  have hfinalcomp : N.name ∈
      ((prePass integrity g.flatNodes [] storage).2.1).completeNodes :=
    prePass_complete_preserved _ _ _ _ _ hcompmem hNfinal
  intro hx
  simp only [BuildAllNodes] at hx
  rcases List.mem_append.mp hx with h | h
  · exact prePass_no_buildStart _ _ _ _ _ h
  · exact buildLoop_no_buildStart_of_complete _ _ _ _ _ _ hfinalcomp h

/-- Witness for C2 at the Compile/Package fixture: Compile is complete
and passes the pre-pass, so its build logic is not invoked again. -/
theorem buildAllNodes_skips_complete_witness :
    (gCP.flatNodes.map (·.name)).Nodup ∧
    nCompile ∈ gCP.flatNodes ∧
    stCP.isComplete "Compile" = true ∧
    Ev.buildStart "Compile" ∉
      (BuildAllNodes (fun _ m => some m) (fun _ _ => true) gCP stCP "Root").2.2 :=
  ⟨by decide, by decide, by decide,
    buildAllNodes_skips_complete (fun _ m => some m) (fun _ _ => true) gCP stCP "Root"
      nCompile (by decide) (by decide) (by decide) rfl (by decide)⟩

/-! ### C3: cleaning is transitively infectious -/

/-- Direct or transitive dependency between nodes of a node list,
following the `InputDependencies` edges. -/
inductive DependsOn (nodes : List Node) : Node → Node → Prop where
  | direct {a b : Node} (ha : a ∈ nodes) (hb : b ∈ nodes)
      (h : a.name ∈ b.inputDependencies) : DependsOn nodes a b
  | trans {a b c : Node} (h₁ : DependsOn nodes a b) (h₂ : DependsOn nodes b c) :
      DependsOn nodes a c

/-- The flattened node order is topologically valid: every node whose
name appears among a node's input dependencies occurs strictly before
it. -/
def TopoOrdered (nodes : List Node) : Prop :=
  ∀ pre b post, nodes = pre ++ b :: post →
    ∀ a ∈ nodes, a.name ∈ b.inputDependencies → a ∈ pre

/-- Decidable index-based reformulation of `TopoOrdered`. -/
abbrev topoOrderedFin (nodes : List Node) : Prop :=
  ∀ i j : Fin nodes.length,
    (nodes.get i).name ∈ (nodes.get j).inputDependencies → (i : Nat) < (j : Nat)

theorem topoOrdered_of_fin (nodes : List Node) (h : topoOrderedFin nodes) :
    TopoOrdered nodes := by
  intro pre b post heq a hA hedge
  subst heq
  obtain ⟨i, hi, hgi⟩ := List.mem_iff_getElem.mp hA
  have hj : pre.length < (pre ++ b :: post).length := by simp
  have hgj : (pre ++ b :: post)[pre.length] = b := by
    rw [List.getElem_append_right (le_refl pre.length)]
    simp
  have hlt : i < pre.length := by
    have := h ⟨i, hi⟩ ⟨pre.length, hj⟩
    simp only [List.get_eq_getElem] at this
    exact this (by rw [hgi, hgj]; exact hedge)
  have hgl : (pre ++ b :: post)[i] = pre.get ⟨i, hlt⟩ := by
    rw [List.get_eq_getElem]
    exact List.getElem_append_left hlt
  rw [← hgi, hgl]
  exact List.get_mem pre i hlt

theorem prePass_infects_direct (integrity : IntegrityFn) (nodes : List Node)
    (storage : TempStorage) {a b : Node}
    (hnd : (nodes.map (·.name)).Nodup) (htopo : TopoOrdered nodes)
    (ha : a ∈ nodes) (hb : b ∈ nodes) (hedge : a.name ∈ b.inputDependencies)
    (hclean : a.name ∈ (prePass integrity nodes [] storage).1) :
    b.name ∈ (prePass integrity nodes [] storage).1 := by
  obtain ⟨pre, post, hsplit⟩ := List.append_of_mem hb
  have hapre : a ∈ pre := htopo pre b post hsplit a ha hedge
  have hnames : ((pre.map (·.name)) ++ b.name :: (post.map (·.name))).Nodup := by
    have := hnd
    rw [hsplit] at this
    simpa using this
  rw [List.nodup_append] at hnames
  obtain ⟨-, -, hdisj⟩ := hnames
  have hPP : prePass integrity nodes [] storage
      = prePass integrity (pre ++ b :: post) [] storage := by rw [hsplit]
  have hclean' : a.name ∈ (prePass integrity (b :: post)
      (prePass integrity pre [] storage).1
      (prePass integrity pre [] storage).2.1).1 := by
    rw [hPP, prePass_append_cleaned] at hclean
    exact hclean
  have hanpre : a.name ∈ pre.map (·.name) := List.mem_map_of_mem _ hapre
  have hac₁ : a.name ∈ (prePass integrity pre [] storage).1 := by
    rcases prePass_cleaned_origin _ _ _ _ hclean' with h | h
    · exact h
    · exact absurd h (by simpa using hdisj hanpre)
  have hcond : ∃ x ∈ b.inputDependencies, x ∈ (prePass integrity pre [] storage).1 :=
    ⟨a.name, hedge, hac₁⟩
  rw [hPP, prePass_append_cleaned]
  have hstep : (prePass integrity (b :: post)
      (prePass integrity pre [] storage).1
      (prePass integrity pre [] storage).2.1).1 =
      (prePass integrity post ((prePass integrity pre [] storage).1 ++ [b.name])
        (((prePass integrity pre [] storage).2.1).cleanLocalNode b.name)).1 := by
    simp [prePass, hcond]
  rw [hstep]
  exact prePass_cleaned_mono _ _ _ _ (by simp)

theorem prePass_infects_depends (integrity : IntegrityFn) (nodes : List Node)
    (storage : TempStorage) (hnd : (nodes.map (·.name)).Nodup)
    (htopo : TopoOrdered nodes) {a b : Node} (hdep : DependsOn nodes a b) :
    a.name ∈ (prePass integrity nodes [] storage).1 →
    b.name ∈ (prePass integrity nodes [] storage).1 := by
  induction hdep with
  | direct ha hb hedge =>
    exact fun h => prePass_infects_direct integrity nodes storage hnd htopo ha hb hedge h
  | trans h₁ h₂ ih₁ ih₂ => exact fun h => ih₂ (ih₁ h)

/-- C3: the integrity pre-pass is transitively infectious — if node `N`
is cleaned, every node `M` depending directly or transitively on `N` in a
name-unique, topologically ordered flattened node list is also cleaned
and loses its completion marker. -/
theorem prePass_infectious_clean
    (integrity : IntegrityFn) (g : Graph) (storage : TempStorage) (N M : Node)
    (hnd : (g.flatNodes.map (·.name)).Nodup)
    (htopo : TopoOrdered g.flatNodes)
    (hdep : DependsOn g.flatNodes N M)
    (hN : N.name ∈ (prePass integrity g.flatNodes [] storage).1) :
    M.name ∈ (prePass integrity g.flatNodes [] storage).1 ∧
    M.name ∉ ((prePass integrity g.flatNodes [] storage).2.1).completeNodes := by
  have hM := prePass_infects_depends integrity g.flatNodes storage hnd htopo hdep hN
  exact ⟨hM, prePass_cleaned_not_complete integrity g.flatNodes [] storage M.name hM
    (List.not_mem_nil _)⟩

/-- Concrete fixture: a three-node chain for the infectious-clean
scenario. -/
def nChainA : Node := ⟨"Compile", [], ["Obj"], [], none⟩

/-- Concrete fixture: middle of the chain (depends on Compile). -/
def nChainB : Node := ⟨"Link", ["Obj"], ["Bin"], ["Compile"], none⟩

/-- Concrete fixture: end of the chain (depends on Link). -/
def nChainC : Node := ⟨"Pack", ["Bin"], ["Pkg"], ["Link"], none⟩

/-- Concrete fixture: the chain graph. -/
def gChain : Graph := ⟨[⟨[nChainA, nChainB, nChainC]⟩], []⟩

/-- Concrete fixture: storage in which all three chain nodes are marked
complete. -/
def stChain : TempStorage := ⟨["Compile", "Link", "Pack"], []⟩

/-- Concrete fixture: an integrity oracle that fails exactly for
Compile. -/
def integFailCompile : IntegrityFn := fun n _ => n ≠ "Compile"

/-- Witness for C3 at the chain fixture: Compile fails integrity, so
Pack — two dependency steps downstream, itself marked complete and
passing integrity — is cleaned as well. -/
theorem prePass_infectious_clean_witness :
    "Compile" ∈ (prePass integFailCompile gChain.flatNodes [] stChain).1 ∧
    integFailCompile "Pack" nChainC.outputNames = true ∧
    stChain.isComplete "Pack" = true ∧
    ("Pack" ∈ (prePass integFailCompile gChain.flatNodes [] stChain).1 ∧
     "Pack" ∉ ((prePass integFailCompile gChain.flatNodes [] stChain).2.1).completeNodes) :=
  ⟨by decide, by decide, by decide,
    prePass_infectious_clean integFailCompile gChain stChain nChainA nChainC
      (by decide) (topoOrdered_of_fin _ (by decide))
      (@DependsOn.trans gChain.flatNodes nChainA nChainB nChainC
        (DependsOn.direct (by decide) (by decide) (by decide))
        (DependsOn.direct (by decide) (by decide) (by decide)))
      (by decide)⟩

/-! ### C6: outputs are pushed to shared storage iff consumed across
agent scope -/

/-- The specification's condition for pushing an output tag to shared
storage: some node in a different agent group, or in the same agent
group but with a different controlling trigger, lists the tag among its
input names. -/
def mustPushSharedSpec (g : Graph) (node : Node) (tag : String) : Prop :=
  ∃ other : Node,
    tag ∈ other.inputNames ∧
    ((∃ grp ∈ g.groups, other ∈ grp.nodes ∧ node ∉ grp.nodes) ∨
     ((∃ grp ∈ g.groups, other ∈ grp.nodes ∧ node ∈ grp.nodes) ∧
       other.controllingTrigger ≠ node.controllingTrigger))

theorem referencedOutputs_iff (g : Graph) (node : Node) (tag : String) :
    tag ∈ referencedOutputs g node ↔ mustPushSharedSpec g node tag := by
  unfold referencedOutputs mustPushSharedSpec
  constructor
  · intro h
    simp only [List.mem_flatMap] at h
    obtain ⟨grp, hgrp, other, hother, htag⟩ := h
    by_cases hcond : node ∉ grp.nodes ∨ node.controllingTrigger ≠ other.controllingTrigger
    · rw [if_pos hcond] at htag
      refine ⟨other, htag, ?_⟩
      by_cases hng : node ∈ grp.nodes
      · right
        refine ⟨⟨grp, hgrp, hother, hng⟩, ?_⟩
        rcases hcond with h' | h'
        · exact absurd hng h'
        · exact Ne.symm h'
      · exact Or.inl ⟨grp, hgrp, hother, hng⟩
    · rw [if_neg hcond] at htag
      exact absurd htag (List.not_mem_nil _)
  · rintro ⟨other, htag, ⟨grp, hgrp, hother, hng⟩ | ⟨⟨grp, hgrp, hother, hng⟩, htrig⟩⟩
    · simp only [List.mem_flatMap]
      exact ⟨grp, hgrp, other, hother, by rw [if_pos (Or.inl hng)]; exact htag⟩
    · simp only [List.mem_flatMap]
      exact ⟨grp, hgrp, other, hother, by rw [if_pos (Or.inr (Ne.symm htrig))]; exact htag⟩

theorem archiveOutputs_push_eq (nodeName : String) (refs : List String) (m : TagMap)
    (outs : List String) (st : TempStorage) (n o : String) (files : List String)
    (push : Bool)
    (hev : Ev.archive n o files push ∈ (archiveOutputs nodeName refs m outs st).2.2) :
    push = refs.contains o := by
  induction outs generalizing st with
  | nil => simp [archiveOutputs] at hev
  | cons o₀ rest ih =>
    cases hk : getKey m o₀ with
    | none => simp [archiveOutputs, hk] at hev
    | some v =>
      cases v with
      | none => simp [archiveOutputs, hk] at hev
      | some fs =>
        simp only [archiveOutputs, hk] at hev
        rcases List.mem_cons.mp hev with h | h
        · injection h with h₁ h₂ h₃ h₄
          rw [h₄, h₂]
        · exact ih _ h

theorem buildSingleNode_archive_push (nb : NodeBuildFn) (g : Graph) (node : Node)
    (st : TempStorage) (root : String) (o : String) (files : List String) (push : Bool)
    (hev : Ev.archive node.name o files push
      ∈ (BuildSingleNode nb g node st root).2.2) :
    push = (referencedOutputs g node).contains o := by
  unfold BuildSingleNode at hev
  cases ha : assembleTagMap g node st root with
  | none => simp [ha] at hev
  | some m₀ =>
    simp only [ha] at hev
    cases hb : nb node.name m₀ with
    | none => simp [hb] at hev
    | some m₁ =>
      simp only [hb] at hev
      split_ifs at hev with hr
      · rcases List.mem_cons.mp hev with h | h
        · exact absurd h (by simp)
        · rcases List.mem_append.mp h with h' | h'
          · exact archiveOutputs_push_eq _ _ _ _ _ _ _ _ _ h'
          · simp at h'
      · rcases List.mem_cons.mp hev with h | h
        · exact absurd h (by simp)
        · exact archiveOutputs_push_eq _ _ _ _ _ _ _ _ _ h

/-- C6: every output archived by `BuildSingleNode` carries the
must-push-to-shared flag set if and only if some node in a different
agent group, or in the same group under a different controlling trigger,
consumes the tag. -/
theorem archive_push_iff_cross_scope
    (nodeBuild : NodeBuildFn) (g : Graph) (node : Node) (storage : TempStorage)
    (root : String) (o : String) (files : List String) (push : Bool)
    (hev : Ev.archive node.name o files push
      ∈ (BuildSingleNode nodeBuild g node storage root).2.2) :
    push = true ↔ mustPushSharedSpec g node o := by
  rw [buildSingleNode_archive_push nodeBuild g node storage root o files push hev,
    ← referencedOutputs_iff]
  simp

/-- Concrete fixture: the producer of `Binaries`, alone in its agent
group. -/
def nXCompile : Node := ⟨"Compile", [], ["Binaries"], [], none⟩

/-- Concrete fixture: the consumer of `Binaries`, in a different agent
group. -/
def nXPackage : Node := ⟨"Package", ["Binaries"], [], ["Compile"], none⟩

/-- Concrete fixture: a two-group graph crossing agent scope. -/
def gTwoGroups : Graph := ⟨[⟨[nXCompile]⟩, ⟨[nXPackage]⟩], []⟩

/-- Concrete fixture: build logic producing `out.bin` under
`Binaries`. -/
def buildBinaries : NodeBuildFn := fun _ m => some (setKey m "Binaries" (some ["out.bin"]))

/-- Witness for C6 at the two-group fixture: `Binaries` is consumed from
another agent group, so it is archived with the push flag set. -/
theorem archive_push_iff_cross_scope_witness :
    Ev.archive "Compile" "Binaries" ["out.bin"] true
      ∈ (BuildSingleNode buildBinaries gTwoGroups nXCompile stEmpty "Root").2.2 ∧
    (true = true ↔ mustPushSharedSpec gTwoGroups nXCompile "Binaries") :=
  ⟨by decide, archive_push_iff_cross_scope buildBinaries gTwoGroups nXCompile stEmpty
    "Root" "Binaries" ["out.bin"] true (by decide)⟩

/-! ### C8: a node is marked complete only after all outputs are
archived -/

theorem archiveOutputs_success_all (nodeName : String) (refs : List String)
    (m : TagMap) (outs : List String) (st : TempStorage)
    (h : (archiveOutputs nodeName refs m outs st).1 = true) :
    ∀ o ∈ outs, ∃ files push,
      Ev.archive nodeName o files push ∈ (archiveOutputs nodeName refs m outs st).2.2 := by
  induction outs generalizing st with
  | nil => simp
  | cons o₀ rest ih =>
    intro o ho
    cases hk : getKey m o₀ with
    | none => simp [archiveOutputs, hk] at h
    | some v =>
      cases v with
      | none => simp [archiveOutputs, hk] at h
      | some fs =>
        simp only [archiveOutputs, hk] at h ⊢
        rcases List.mem_cons.mp ho with rfl | ho'
        · exact ⟨fs, _, List.mem_cons_self _ _⟩
        · obtain ⟨files, push, hmem⟩ := ih _ h o ho'
          exact ⟨files, push, List.mem_cons_of_mem _ hmem⟩

/-- C8: `MarkAsComplete` is invoked only on success, as the last storage
action, and only after an `Archive` for every declared output tag; a run
whose build logic failed or that failed earlier produces no completion
marker event. -/
theorem markComplete_only_after_archives
    (nodeBuild : NodeBuildFn) (g : Graph) (node : Node) (storage : TempStorage)
    (root : String)
    (hmark : Ev.markComplete node.name
      ∈ (BuildSingleNode nodeBuild g node storage root).2.2) :
    (BuildSingleNode nodeBuild g node storage root).1 = true ∧
    ∃ evs₀, (BuildSingleNode nodeBuild g node storage root).2.2
        = evs₀ ++ [Ev.markComplete node.name] ∧
      ∀ o ∈ node.outputNames, ∃ files push,
        Ev.archive node.name o files push ∈ evs₀ := by
  unfold BuildSingleNode at hmark ⊢
  cases ha : assembleTagMap g node storage root with
  | none => simp [ha] at hmark
  | some m₀ =>
    simp only [ha] at hmark ⊢
    cases hb : nodeBuild node.name m₀ with
    | none => simp [hb] at hmark
    | some m₁ =>
      simp only [hb] at hmark ⊢
      split_ifs at hmark ⊢ with hr
      · refine ⟨rfl, Ev.buildStart node.name ::
          (archiveOutputs node.name (referencedOutputs g node) m₁
            node.outputNames storage).2.2, by simp, ?_⟩
        intro o ho
        obtain ⟨files, push, hmem⟩ :=
          archiveOutputs_success_all node.name (referencedOutputs g node) m₁
            node.outputNames storage hr o ho
        exact ⟨files, push, List.mem_cons_of_mem _ hmem⟩
      · exfalso
        rcases List.mem_cons.mp hmark with h | h
        · exact Ev.noConfusion h
        · obtain ⟨o, files, push, he⟩ :=
            archiveOutputs_events_shape node.name _ m₁ node.outputNames storage _ h
          exact Ev.noConfusion he

/-- Witness for C8: a successful single-node run of the two-group
fixture ends in the completion marker, preceded by the archive of its
only output. -/
theorem markComplete_only_after_archives_witness :
    Ev.markComplete "Compile"
      ∈ (BuildSingleNode buildBinaries gTwoGroups nXCompile stEmpty "Root").2.2 ∧
    ((BuildSingleNode buildBinaries gTwoGroups nXCompile stEmpty "Root").1 = true ∧
     ∃ evs₀, (BuildSingleNode buildBinaries gTwoGroups nXCompile stEmpty "Root").2.2
         = evs₀ ++ [Ev.markComplete "Compile"] ∧
       ∀ o ∈ nXCompile.outputNames, ∃ files push,
         Ev.archive "Compile" o files push ∈ evs₀) :=
  ⟨by decide,
    markComplete_only_after_archives buildBinaries gTwoGroups nXCompile stEmpty
      "Root" (by decide)⟩

/-! ### C4: trigger activation is upward closed, but inactive triggers do
not gate execution -/

/-- Concrete fixture: a parentless trigger. -/
def trigQA : ManualTrigger := .root "QA"

/-- Concrete fixture: a trigger whose parent is `trigQA`. -/
def trigRelease : ManualTrigger := .child "Release" trigQA

/-- Concrete fixture: a node gated by `trigQA`. -/
def nGated : Node := ⟨"Gated", [], [], [], some trigQA⟩

/-- Concrete fixture: a one-node graph whose only node is
trigger-gated. -/
def gGated : Graph := ⟨[⟨[nGated]⟩], [("QA", trigQA)]⟩

/-- Concrete fixture: arguments targeting the gated node without
requesting any trigger. -/
def argsGated : ExecuteArgs := ⟨["Gated"], [], false, false, [], false, none, none⟩

/-- Concrete fixture: a trigger forest with `Release` under `QA`. -/
def gTrig : Graph := ⟨[], [("QA", trigQA), ("Release", trigRelease)]⟩

/-- C4 (code bug): the active trigger set is computed upward closed —
requesting `Release` activates its ancestor `QA` as well — but the set is
used only for `-Export`: with no trigger requested the active set is
empty, yet `Execute` still builds the node gated by `QA` and reports
success. -/
theorem inactive_trigger_node_still_built :
    activeTriggers gTrig ["Release"] false = some [trigRelease, trigQA] ∧
    activeTriggers (gGated.select [nGated]) [] false = some [] ∧
    nGated.controllingTrigger = some trigQA ∧
    (Execute [] argsGated gGated stEmpty (fun _ m => some m) (fun _ _ => true) "Root").1
      = ExitCode.success ∧
    Ev.buildStart "Gated"
      ∈ (Execute [] argsGated gGated stEmpty (fun _ m => some m)
          (fun _ _ => true) "Root").2 := by
  decide

/-! ### C5: the first build failure aborts the run -/

/-- The node name an event refers to, if any. -/
def Ev.evName : Ev → Option String
  | .cleanAll => none
  | .clean n => some n
  | .checkIntegrity n _ => some n
  | .queryComplete n _ => some n
  | .buildStart n => some n
  | .archive n _ _ _ => some n
  | .markComplete n => some n

theorem buildSingleNode_events_name (nb : NodeBuildFn) (g : Graph) (node : Node)
    (st : TempStorage) (root : String) :
    ∀ e ∈ (BuildSingleNode nb g node st root).2.2, e.evName = some node.name := by
  unfold BuildSingleNode
  cases ha : assembleTagMap g node st root with
  | none => simp
  | some m₀ =>
    simp only [ha]
    cases hb : nb node.name m₀ with
    | none => simp [Ev.evName]
    | some m₁ =>
      simp only [hb]
      split_ifs with hr <;> intro e he
      · rcases List.mem_cons.mp he with rfl | h
        · rfl
        · rcases List.mem_append.mp h with h' | h'
          · obtain ⟨o, files, push, rfl⟩ :=
              archiveOutputs_events_shape node.name _ m₁ node.outputNames st _ h'
            rfl
          · rw [List.mem_singleton.mp h']
            rfl
      · rcases List.mem_cons.mp he with rfl | h
        · rfl
        · obtain ⟨o, files, push, rfl⟩ :=
            archiveOutputs_events_shape node.name _ m₁ node.outputNames st _ h
          rfl

theorem buildLoop_events_name (nb : NodeBuildFn) (g : Graph) (root : String)
    (l : List Node) (st : TempStorage) :
    ∀ e ∈ (buildLoop nb g root l st).2.2, ∃ n ∈ l, e.evName = some n.name := by
  induction l generalizing st with
  | nil => simp [buildLoop]
  | cons n rest ih =>
    intro e he
    by_cases hc : st.isComplete n.name
    · simp only [buildLoop, hc, if_true] at he
      rcases List.mem_cons.mp he with rfl | h
      · exact ⟨n, List.mem_cons_self _ _, rfl⟩
      · obtain ⟨n', hn', he'⟩ := ih st e h
        exact ⟨n', List.mem_cons_of_mem _ hn', he'⟩
    · simp only [buildLoop, hc, if_false, Bool.false_eq_true] at he
      by_cases hb : (BuildSingleNode nb g n st root).1
      · simp only [hb, if_true] at he
        rcases List.mem_cons.mp he with rfl | h
        · exact ⟨n, List.mem_cons_self _ _, rfl⟩
        · rcases List.mem_append.mp h with h' | h'
          · exact ⟨n, List.mem_cons_self _ _,
              buildSingleNode_events_name nb g n st root e h'⟩
          · obtain ⟨n', hn', he'⟩ := ih _ e h'
            exact ⟨n', List.mem_cons_of_mem _ hn', he'⟩
      · simp only [hb, if_false, Bool.false_eq_true] at he
        rcases List.mem_cons.mp he with rfl | h
        · exact ⟨n, List.mem_cons_self _ _, rfl⟩
        · exact ⟨n, List.mem_cons_self _ _,
            buildSingleNode_events_name nb g n st root e h⟩

theorem buildLoop_fails_fast (nb : NodeBuildFn) (g : Graph) (root : String)
    (pre : List Node) (M : Node) (post : List Node) (st : TempStorage)
    (hpre : (buildLoop nb g root pre st).1 = true)
    (hMc : ((buildLoop nb g root pre st).2.1).isComplete M.name = false)
    (hMf : (BuildSingleNode nb g M ((buildLoop nb g root pre st).2.1) root).1 = false) :
    buildLoop nb g root (pre ++ M :: post) st =
      (false, (BuildSingleNode nb g M ((buildLoop nb g root pre st).2.1) root).2.1,
       (buildLoop nb g root pre st).2.2 ++
         Ev.queryComplete M.name false ::
           (BuildSingleNode nb g M ((buildLoop nb g root pre st).2.1) root).2.2) := by
  induction pre generalizing st with
  | nil =>
    simp only [buildLoop] at hMc hMf
    simp [buildLoop, hMc, hMf]
  | cons n pret ih =>
    simp only [buildLoop] at hpre hMc hMf
    by_cases hc : st.isComplete n.name
    · simp only [hc, if_true] at hpre hMc hMf
      have := ih st hpre hMc hMf
      simp only [List.cons_append, buildLoop, hc, if_true, List.append_eq, this]
    · simp only [hc, if_false, Bool.false_eq_true] at hpre hMc hMf
      by_cases hb : (BuildSingleNode nb g n st root).1
      · simp only [hb, if_true] at hpre hMc hMf
        have := ih _ hpre hMc hMf
        simp [List.cons_append, buildLoop, hc, hb, List.append_eq, this]
      · simp only [hb, if_false, Bool.false_eq_true] at hpre

/-- C5: the first node whose `BuildSingleNode` invocation fails makes
`BuildAllNodes` return false immediately — no node after it in the
flattened order is examined or built (no event of the execution loop
refers to a later node) — and `Execute` surfaces the failure as an error
exit code. -/
theorem buildAllNodes_fails_fast
    (nodeBuild : NodeBuildFn) (integrity : IntegrityFn) (root : String)
    (tasks : List TaskType) (acc : List String) (args : ExecuteArgs)
    (g g₂ : Graph) (storage st₀ : TempStorage) (cevs : List Ev)
    (ts : List Node) (trigs : List ManualTrigger)
    (pre : List Node) (M : Node) (post : List Node) (stp : TempStorage)
    (hfind : findAvailableTasks tasks = some acc)
    (hclean : cleanPhase args storage = (st₀, cevs))
    (hres : resolveTargets g args.targetNames = some ts)
    (hsel : g.select ts = g₂)
    (htrig : activeTriggers g₂ args.triggerNames args.skipTriggers = some trigs)
    (hsn : args.singleNodeName = none)
    (hlo : args.listOnly = false)
    (hex : args.exportFile = none)
    (hflat : g₂.flatNodes = pre ++ M :: post)
    (hnd : (g₂.flatNodes.map (·.name)).Nodup)
    (hstp : (prePass integrity g₂.flatNodes [] st₀).2.1 = stp)
    (hpre : (buildLoop nodeBuild g₂ root pre stp).1 = true)
    (hMc : ((buildLoop nodeBuild g₂ root pre stp).2.1).isComplete M.name = false)
    (hMf : (BuildSingleNode nodeBuild g₂ M
      ((buildLoop nodeBuild g₂ root pre stp).2.1) root).1 = false) :
    (BuildAllNodes nodeBuild integrity g₂ st₀ root).1 = false ∧
    (Execute tasks args g storage nodeBuild integrity root).1 = ExitCode.error ∧
    (∀ P ∈ post, ∀ e ∈ (buildLoop nodeBuild g₂ root g₂.flatNodes stp).2.2,
      e.evName ≠ some P.name) := by
  have hloopEq : buildLoop nodeBuild g₂ root g₂.flatNodes stp =
      (false, (BuildSingleNode nodeBuild g₂ M
        ((buildLoop nodeBuild g₂ root pre stp).2.1) root).2.1,
       (buildLoop nodeBuild g₂ root pre stp).2.2 ++
         Ev.queryComplete M.name false ::
           (BuildSingleNode nodeBuild g₂ M
             ((buildLoop nodeBuild g₂ root pre stp).2.1) root).2.2) := by
    rw [hflat]
    exact buildLoop_fails_fast nodeBuild g₂ root pre M post stp hpre hMc hMf
  have h1 : (BuildAllNodes nodeBuild integrity g₂ st₀ root).1 = false := by
    simp only [BuildAllNodes]
    rw [hstp, hloopEq]
  refine ⟨h1, ?_, ?_⟩
  · unfold Execute
    simp only [hfind, hclean, hres, hsel, htrig, hsn, hlo, hex, h1]
    simp [h1]
  · intro P hP e he
    rw [hloopEq] at he
    have hnames : ((pre.map (·.name)) ++ M.name :: (post.map (·.name))).Nodup := by
      have := hnd
      rw [hflat] at this
      simpa using this
    rw [List.nodup_append] at hnames
    obtain ⟨-, h₂, hdisj⟩ := hnames
    have hMP : M.name ≠ P.name := by
      intro h
      exact (List.nodup_cons.mp h₂).1 (h ▸ List.mem_map_of_mem _ hP)
    rcases List.mem_append.mp he with h | h
    · obtain ⟨n, hn, hen⟩ := buildLoop_events_name nodeBuild g₂ root pre stp e h
      rw [hen]
      intro hcontra
      injection hcontra with hc'
      have hnp : n.name ∈ pre.map (·.name) := List.mem_map_of_mem _ hn
      have hPm : P.name ∈ M.name :: post.map (·.name) :=
        List.mem_cons_of_mem _ (List.mem_map_of_mem _ hP)
      rw [hc'] at hnp
      exact hdisj hnp hPm
    · rcases List.mem_cons.mp h with rfl | h'
      · intro hcontra
        injection hcontra with hc'
        exact hMP hc'
      · have hname := buildSingleNode_events_name nodeBuild g₂ M _ root e h'
        rw [hname]
        intro hcontra
        injection hcontra with hc'
        exact hMP hc'

/-- Concrete fixture: a node whose build logic fails. -/
def nFailA : Node := ⟨"A", [], [], [], none⟩

/-- Concrete fixture: a node after the failing one. -/
def nAfterB : Node := ⟨"B", [], [], ["A"], none⟩

/-- Concrete fixture: a graph in which A fails and B follows it. -/
def gFail : Graph := ⟨[⟨[nFailA, nAfterB]⟩], []⟩

/-- Concrete fixture: build logic failing exactly for node A. -/
def buildFailA : NodeBuildFn := fun n m => if n = "A" then none else some m

/-- Concrete fixture: arguments targeting both nodes of `gFail`. -/
def argsFail : ExecuteArgs := ⟨["A", "B"], [], false, false, [], false, none, none⟩

/-- Witness for C5 at the failing-node fixture: A's failure aborts the
run before B is examined and `Execute` exits with an error. -/
theorem buildAllNodes_fails_fast_witness :
    (BuildSingleNode buildFailA gFail nFailA stEmpty "Root").1 = false ∧
    ((BuildAllNodes buildFailA (fun _ _ => true) gFail stEmpty "Root").1 = false ∧
     (Execute [] argsFail gFail stEmpty buildFailA (fun _ _ => true) "Root").1
        = ExitCode.error ∧
     (∀ P ∈ [nAfterB], ∀ e ∈ (buildLoop buildFailA gFail "Root"
        gFail.flatNodes stEmpty).2.2, e.evName ≠ some P.name)) :=
  ⟨by decide,
    buildAllNodes_fails_fast buildFailA (fun _ _ => true) "Root" [] [] argsFail
      gFail gFail stEmpty stEmpty [] [nFailA, nAfterB] [] [] nFailA [nAfterB] stEmpty
      (by decide) (by decide) (by decide) (by decide) (by decide) (by decide)
      (by decide) (by decide) (by decide) (by decide) (by decide) (by decide)
      (by decide) (by decide)⟩

/-! ### C9: configuration errors are fatal before any node executes -/

/-- Whether an event can only originate from the build phase
(`BuildAllNodes` / `BuildSingleNode`), as opposed to the cleaning
phase. -/
def Ev.isBuildPhase : Ev → Bool
  | .checkIntegrity _ _ => true
  | .queryComplete _ _ => true
  | .buildStart _ => true
  | .archive _ _ _ _ => true
  | .markComplete _ => true
  | .cleanAll => false
  | .clean _ => false

theorem cleanPhase_no_buildPhase (args : ExecuteArgs) (storage : TempStorage) :
    ∀ e ∈ (cleanPhase args storage).2, e.isBuildPhase = false := by
  intro e he
  simp only [cleanPhase] at he
  rcases List.mem_append.mp he with h | h
  · split_ifs at h with hc
    · rw [List.mem_singleton.mp h]
      rfl
    · exact absurd h (List.not_mem_nil _)
  · obtain ⟨n, hn, rfl⟩ := List.mem_map.mp h
    rfl

theorem registerElems_success (elems acc res : List String)
    (h : registerElems true elems acc = some res) :
    res = acc ++ elems ∧ (acc.Nodup → res.Nodup) := by
  induction elems generalizing acc with
  | nil =>
    simp only [registerElems, Option.some.injEq] at h
    obtain rfl := h
    exact ⟨by simp, fun hn => hn⟩
  | cons e rest ih =>
    simp only [registerElems] at h
    by_cases hc : acc.contains e = true
    · simp [hc] at h
      exact absurd (by simpa using hc) h.1
    · rw [Bool.not_eq_true] at hc
      simp only [hc, Bool.false_eq_true, if_false] at h
      obtain ⟨heq, hnd⟩ := ih (acc ++ [e]) h
      refine ⟨by rw [heq, List.append_assoc]; rfl, fun hacc => ?_⟩
      refine hnd ?_
      rw [List.nodup_append]
      refine ⟨hacc, List.nodup_singleton e, ?_⟩
      intro a ha hae
      rw [List.mem_singleton.mp hae] at ha
      have : e ∉ acc := by simpa using hc
      exact this ha

theorem findTasksLoop_success (tasks : List TaskType) (acc res : List String)
    (hall : ∀ t ∈ tasks, t.isCustomTask = true)
    (h : findTasksLoop tasks acc = some res) :
    res = acc ++ tasks.flatMap (·.elementNames) ∧ (acc.Nodup → res.Nodup) := by
  induction tasks generalizing acc with
  | nil =>
    simp only [findTasksLoop, Option.some.injEq] at h
    exact ⟨by rw [h]; simp, fun hn => h ▸ hn⟩
  | cons t rest ih =>
    simp only [findTasksLoop] at h
    rw [hall t (List.mem_cons_self _ _)] at h
    cases hr : registerElems true t.elementNames acc with
    | none => rw [hr] at h; exact absurd h (by simp)
    | some acc₂ =>
      rw [hr] at h
      obtain ⟨heq₁, hnd₁⟩ := registerElems_success t.elementNames acc acc₂ hr
      obtain ⟨heq₂, hnd₂⟩ := ih acc₂ (fun t' ht' => hall t' (List.mem_cons_of_mem _ ht')) h
      refine ⟨?_, fun hacc => hnd₂ (hnd₁ hacc)⟩
      rw [heq₂, heq₁]
      simp [List.append_assoc]

theorem findAvailableTasks_dup_fails (tasks : List TaskType)
    (hall : ∀ t ∈ tasks, t.isCustomTask = true)
    (hdup : ¬ (tasks.flatMap (·.elementNames)).Nodup) :
    findAvailableTasks tasks = none := by
  cases hf : findAvailableTasks tasks with
  | none => rfl
  | some res =>
    obtain ⟨heq, hnd⟩ := findTasksLoop_success tasks [] res hall hf
    refine absurd ?_ hdup
    have := hnd List.nodup_nil
    rw [heq] at this
    simpa using this

theorem resolveTargets_fail (g : Graph) (names : List String)
    (h : ∃ t ∈ names, g.tryResolveReference t = none) :
    resolveTargets g names = none := by
  induction names with
  | nil =>
    obtain ⟨t, ht, -⟩ := h
    exact absurd ht (List.not_mem_nil _)
  | cons n rest ih =>
    obtain ⟨t, ht, hfail⟩ := h
    simp only [resolveTargets]
    cases hr : g.tryResolveReference n with
    | none => rfl
    | some ns =>
      rcases List.mem_cons.mp ht with rfl | ht'
      · rw [hr] at hfail
        exact absurd hfail (by simp)
      · rw [ih ⟨t, ht', hfail⟩]

theorem activeTriggersLoop_fail (g : Graph) (names : List String)
    (h : ∃ t ∈ names, lookupTrigger g.nameToTrigger t = none) :
    activeTriggersLoop g names = none := by
  induction names with
  | nil =>
    obtain ⟨t, ht, -⟩ := h
    exact absurd ht (List.not_mem_nil _)
  | cons n rest ih =>
    obtain ⟨t, ht, hfail⟩ := h
    simp only [activeTriggersLoop]
    cases hr : lookupTrigger g.nameToTrigger n with
    | none => rfl
    | some tr =>
      rcases List.mem_cons.mp ht with rfl | ht'
      · rw [hr] at hfail
        exact absurd hfail (by simp)
      · rw [ih ⟨t, ht', hfail⟩]
        rfl

theorem activeTriggers_fail (g : Graph) (names : List String) (skip : Bool)
    (h : ∃ t ∈ names, lookupTrigger g.nameToTrigger t = none) :
    activeTriggers g names skip = none := by
  unfold activeTriggers
  rw [activeTriggersLoop_fail g names h]

/-- C9: configuration errors are fatal before any node executes — a
duplicate task-element handler name detected during task discovery, a
target name `TryResolveReference` cannot resolve, or a trigger name
absent from `NameToTrigger` each make `Execute` return an error exit
code with no build-phase storage event, so neither `BuildSingleNode` nor
`BuildAllNodes` runs. -/
theorem execute_config_errors_fatal :
    (∀ tasks args g storage nodeBuild integrity root,
      (∀ t ∈ tasks, t.isCustomTask = true) →
      ¬ (tasks.flatMap (·.elementNames)).Nodup →
      Execute tasks args g storage nodeBuild integrity root = (ExitCode.error, [])) ∧
    (∀ tasks acc args g storage nodeBuild integrity root,
      findAvailableTasks tasks = some acc →
      (∃ t ∈ args.targetNames, g.tryResolveReference t = none) →
      (Execute tasks args g storage nodeBuild integrity root).1 = ExitCode.error ∧
      ∀ e ∈ (Execute tasks args g storage nodeBuild integrity root).2,
        e.isBuildPhase = false) ∧
    (∀ tasks acc args g storage nodeBuild integrity root ts,
      findAvailableTasks tasks = some acc →
      resolveTargets g args.targetNames = some ts →
      (∃ t ∈ args.triggerNames,
        lookupTrigger (g.select ts).nameToTrigger t = none) →
      (Execute tasks args g storage nodeBuild integrity root).1 = ExitCode.error ∧
      ∀ e ∈ (Execute tasks args g storage nodeBuild integrity root).2,
        e.isBuildPhase = false) := by
  refine ⟨?_, ?_, ?_⟩
  · intro tasks args g storage nodeBuild integrity root hall hdup
    unfold Execute
    rw [findAvailableTasks_dup_fails tasks hall hdup]
  · intro tasks acc args g storage nodeBuild integrity root hfind hex
    unfold Execute
    simp only [hfind, resolveTargets_fail g args.targetNames hex]
    exact ⟨by trivial, cleanPhase_no_buildPhase args storage⟩
  · intro tasks acc args g storage nodeBuild integrity root ts hfind hres htrig
    unfold Execute
    simp only [hfind, hres,
      activeTriggers_fail (g.select ts) args.triggerNames args.skipTriggers htrig]
    exact ⟨by trivial, cleanPhase_no_buildPhase args storage⟩

/-- Concrete fixture: a task type carrying a duplicated element name. -/
def taskDup : TaskType := ⟨"CopyTask", true, ["Copy", "Copy"]⟩

/-- Concrete fixture: arguments naming a target that is not in the
graph. -/
def argsBadTarget : ExecuteArgs := ⟨["Nope"], [], false, false, [], false, none, none⟩

/-- Concrete fixture: arguments naming a trigger that is not in the
graph. -/
def argsBadTrigger : ExecuteArgs :=
  ⟨["Compile"], ["NoTrig"], false, false, [], false, none, none⟩

/-- Witness for C9: each of the three configuration errors aborts
`Execute` with an error exit code. -/
theorem execute_config_errors_fatal_witness :
    ((∀ t ∈ [taskDup], t.isCustomTask = true) ∧
     ¬ ([taskDup].flatMap (·.elementNames)).Nodup ∧
     Execute [taskDup] argsBadTarget gCP stEmpty (fun _ m => some m)
       (fun _ _ => true) "Root" = (ExitCode.error, [])) ∧
    (gCP.tryResolveReference "Nope" = none ∧
     (Execute [] argsBadTarget gCP stEmpty (fun _ m => some m)
       (fun _ _ => true) "Root").1 = ExitCode.error) ∧
    (lookupTrigger (gCP.select [nCompile]).nameToTrigger "NoTrig" = none ∧
     (Execute [] argsBadTrigger gCP stEmpty (fun _ m => some m)
       (fun _ _ => true) "Root").1 = ExitCode.error) :=
  ⟨⟨by decide, by decide,
    execute_config_errors_fatal.1 [taskDup] argsBadTarget gCP stEmpty
      (fun _ m => some m) (fun _ _ => true) "Root" (by decide) (by decide)⟩,
   ⟨by decide,
    (execute_config_errors_fatal.2.1 [] [] argsBadTarget gCP stEmpty
      (fun _ m => some m) (fun _ _ => true) "Root" (by decide)
      ⟨"Nope", by decide, by decide⟩).1⟩,
   ⟨by decide,
    (execute_config_errors_fatal.2.2 [] [] argsBadTrigger gCP stEmpty
      (fun _ m => some m) (fun _ _ => true) "Root" [nCompile] (by decide)
      (by decide) ⟨"NoTrig", by decide, by decide⟩).1⟩⟩

/-! ### C10: the -SingleNode path builds unconditionally -/

/-- Whether an event is a completeness query, an integrity check, or a
clean — the actions the `-SingleNode` path is claimed never to
perform. -/
def Ev.isSkipOrClean : Ev → Bool
  | .queryComplete _ _ => true
  | .checkIntegrity _ _ => true
  | .clean _ => true
  | .cleanAll => true
  | .buildStart _ => false
  | .archive _ _ _ _ => false
  | .markComplete _ => false

theorem buildSingleNode_events_kinds (nb : NodeBuildFn) (g : Graph) (node : Node)
    (st : TempStorage) (root : String) :
    ∀ e ∈ (BuildSingleNode nb g node st root).2.2,
      e = Ev.buildStart node.name ∨ e = Ev.markComplete node.name ∨
      ∃ o files push, e = Ev.archive node.name o files push := by
  unfold BuildSingleNode
  cases ha : assembleTagMap g node st root with
  | none => simp
  | some m₀ =>
    simp only [ha]
    cases hb : nb node.name m₀ with
    | none => simp
    | some m₁ =>
      simp only [hb]
      split_ifs with hr <;> intro e he
      · rcases List.mem_cons.mp he with rfl | h
        · exact Or.inl rfl
        · rcases List.mem_append.mp h with h' | h'
          · exact Or.inr (Or.inr
              (archiveOutputs_events_shape node.name _ m₁ node.outputNames st _ h'))
          · exact Or.inr (Or.inl (List.mem_singleton.mp h'))
      · rcases List.mem_cons.mp he with rfl | h
        · exact Or.inl rfl
        · exact Or.inr (Or.inr
            (archiveOutputs_events_shape node.name _ m₁ node.outputNames st _ h))

theorem buildSingleNode_buildStart_mem (nb : NodeBuildFn) (g : Graph) (node : Node)
    (st : TempStorage) (root : String) (m : TagMap)
    (hasm : assembleTagMap g node st root = some m) :
    Ev.buildStart node.name ∈ (BuildSingleNode nb g node st root).2.2 := by
  unfold BuildSingleNode
  rw [hasm]
  cases hb : nb node.name m with
  | none => simp [hb]
  | some m₁ =>
    simp only [hb]
    split_ifs with hr
    · exact List.mem_cons_self _ _
    · exact List.mem_cons_self _ _

/-- C10: with `-SingleNode=<name>` resolving to a node of the trimmed
graph (no list/export mode, no clean flags), `Execute` runs
`BuildSingleNode` for that node unconditionally: the run's storage events
are exactly the single-node build events, the build logic is started even
though the node is already marked complete in local storage, and no
completeness query, integrity check, or clean is performed. -/
theorem execute_singleNode_unconditional
    (tasks : List TaskType) (acc : List String) (args : ExecuteArgs) (g g₂ : Graph)
    (storage : TempStorage) (nodeBuild : NodeBuildFn) (integrity : IntegrityFn)
    (root : String) (ts : List Node) (trigs : List ManualTrigger)
    (name : String) (N : Node) (m : TagMap)
    (hfind : findAvailableTasks tasks = some acc)
    (hcl : args.clean = false) (hcn : args.cleanNodes = [])
    (hres : resolveTargets g args.targetNames = some ts)
    (hsel : g.select ts = g₂)
    (htrig : activeTriggers g₂ args.triggerNames args.skipTriggers = some trigs)
    (hsn : args.singleNodeName = some name)
    (hname : g₂.nameToNode name = some N)
    (hlo : args.listOnly = false)
    (hex : args.exportFile = none)
    (_hcomp : storage.isComplete N.name = true)
    (hasm : assembleTagMap g₂ N storage root = some m) :
    Execute tasks args g storage nodeBuild integrity root =
      ((if (BuildSingleNode nodeBuild g₂ N storage root).1 then ExitCode.success
        else ExitCode.error),
       (BuildSingleNode nodeBuild g₂ N storage root).2.2) ∧
    Ev.buildStart N.name ∈ (Execute tasks args g storage nodeBuild integrity root).2 ∧
    ∀ e ∈ (Execute tasks args g storage nodeBuild integrity root).2,
      e.isSkipOrClean = false := by
  have hcp : cleanPhase args storage = (storage, []) := by
    simp [cleanPhase, hcl, hcn]
  have hrun : Execute tasks args g storage nodeBuild integrity root =
      ((if (BuildSingleNode nodeBuild g₂ N storage root).1 then ExitCode.success
        else ExitCode.error),
       (BuildSingleNode nodeBuild g₂ N storage root).2.2) := by
    unfold Execute
    simp only [hfind, hcp, hres, hsel, htrig, hsn, hname, hlo, hex]
    simp
  refine ⟨hrun, ?_, ?_⟩
  · rw [hrun]
    exact buildSingleNode_buildStart_mem nodeBuild g₂ N storage root m hasm
  · rw [hrun]
    intro e he
    rcases buildSingleNode_events_kinds nodeBuild g₂ N storage root e he with
      rfl | rfl | ⟨o, files, push, rfl⟩ <;> rfl

/-- Concrete fixture: a dependency-free node for the single-node path. -/
def nSolo : Node := ⟨"Solo", [], [], [], none⟩

/-- Concrete fixture: the one-node graph around `nSolo`. -/
def gSolo : Graph := ⟨[⟨[nSolo]⟩], []⟩

/-- Concrete fixture: storage in which `Solo` is already complete. -/
def stSolo : TempStorage := ⟨["Solo"], []⟩

/-- Concrete fixture: arguments running `-SingleNode=Solo`. -/
def argsSolo : ExecuteArgs := ⟨["Solo"], [], false, false, [], false, none, some "Solo"⟩

/-- Witness for C10: `Solo` is already marked complete, yet the
single-node path starts its build logic and performs no completeness or
integrity bookkeeping. -/
theorem execute_singleNode_unconditional_witness :
    stSolo.isComplete "Solo" = true ∧
    (Ev.buildStart "Solo"
      ∈ (Execute [] argsSolo gSolo stSolo (fun _ m => some m)
          (fun _ _ => true) "Root").2 ∧
     ∀ e ∈ (Execute [] argsSolo gSolo stSolo (fun _ m => some m)
          (fun _ _ => true) "Root").2, e.isSkipOrClean = false) :=
  ⟨by decide,
    (execute_singleNode_unconditional [] [] argsSolo gSolo gSolo stSolo
      (fun _ m => some m) (fun _ _ => true) "Root" [nSolo] [] "Solo" nSolo []
      (by decide) (by decide) (by decide) (by decide) (by decide) (by decide)
      (by decide) (by decide) (by decide) (by decide) (by decide) (by decide)).2⟩

end BuildGraph
